import Mathlib

/-!
Verification development for the TaskManager repository (src/task.py,
src/task_manager.py).  The Python code is shallowly embedded: strings are
lists of characters, `datetime` values are explicit civil date-time records,
exceptions are `Except` values, and the mutable class-level id counter is
threaded explicitly.  Library calls made by the source (rapidfuzz's
`fuzz.ratio`/`process.extractOne`, `datetime` arithmetic, the `re` module
on the regular expressions the source actually uses) are modelled by
executable Lean functions with the same observable behaviour.
-/

namespace TaskModel

/-- Python strings are modelled as lists of characters. -/
abbrev Str := List Char

/-- Whitespace characters recognised by Python's `str.strip` / `str.split`. -/
def isSpacePy (c : Char) : Bool :=
  c = ' ' || c = '\t' || c = '\n' || c = '\r' || c = '\x0b' || c = '\x0c'

/-- Model of Python `str.lower` on a single character, covering the ASCII and
Cyrillic letters this program manipulates. -/
def lowerChar (c : Char) : Char :=
  if 'A' ≤ c ∧ c ≤ 'Z' then Char.ofNat (c.toNat + 32)
  else if c = 'Ё' then 'ё'
  else if 'А' ≤ c ∧ c ≤ 'Я' then Char.ofNat (c.toNat + 32)
  else c

/-- Model of Python `str.lower`. -/
def pyLower (s : Str) : Str := s.map lowerChar

/-- Model of Python `str.strip` (remove leading and trailing whitespace). -/
def pyStrip (s : Str) : Str :=
  ((s.dropWhile isSpacePy).reverse.dropWhile isSpacePy).reverse

/-- The processing `_normalize_value` applies to its input before scoring:
`input_value.strip().lower()`. -/
def pyProcess (s : Str) : Str := pyLower (pyStrip s)

/-- ASCII digit test (Python `\d` on the inputs in scope). -/
def isDigitCh (c : Char) : Bool := '0' ≤ c && c ≤ '9'

/-- The numeric value of a list of ASCII digits (Python `int`). -/
def natOfDigits (ds : Str) : Nat :=
  ds.foldl (fun a c => 10 * a + (c.toNat - 48)) 0

/-- Errors raised by the embedded code (`ValueError` / `OverflowError`
variants, distinguished by the message the source formats). -/
inductive Err where
  /-- "Заголовок должен начинаться с буквы или цифры." -/
  | invalidTitle : Err
  /-- "Некорректное значение input. Допустимые варианты: allowed" -/
  | invalidEnum (input : Str) (allowed : List Str) : Err
  /-- "Некорректное значение due_date." (no token of the relative grammar matched) -/
  | invalidDueDate (s : Str) : Err
  /-- `ValueError` raised by `datetime.replace` (day out of range for the new
  month, or year outside 1..9999). -/
  | badReplace (year month day : Nat) : Err
  /-- `OverflowError` from `datetime + timedelta` leaving the supported range. -/
  | dateOverflow : Err
deriving DecidableEq, Repr

instance {ε α : Type} [DecidableEq ε] [DecidableEq α] : DecidableEq (Except ε α)
  | .error e, .error f =>
    match decEq e f with
    | isTrue h => isTrue (h ▸ rfl)
    | isFalse h => isFalse (fun hc => h (Except.error.inj hc))
  | .error _, .ok _ => isFalse (fun hc => Except.noConfusion hc)
  | .ok _, .error _ => isFalse (fun hc => Except.noConfusion hc)
  | .ok a, .ok b =>
    match decEq a b with
    | isTrue h => isTrue (h ▸ rfl)
    | isFalse h => isFalse (fun hc => h (Except.ok.inj hc))

/-! ### Longest common subsequence and the rapidfuzz `fuzz.ratio` model

rapidfuzz's `fuzz.ratio` is the normalized InDel similarity
`100 * 2 * lcs(a, b) / (|a| + |b|)`.  `lcsSpec` is the textbook recursion;
`lcsDP` is the row-by-row dynamic program used so that concrete instances
evaluate quickly; they are proved equal. -/

/-- Textbook longest-common-subsequence length. -/
def lcsSpec : Str → Str → Nat
  | [], _ => 0
  | _ :: _, [] => 0
  | x :: xs, y :: ys =>
    if x = y then lcsSpec xs ys + 1
    else max (lcsSpec (x :: xs) ys) (lcsSpec xs (y :: ys))

/-- One row update of the LCS dynamic program.  Given the row `ps` for `xs`
over all suffixes of `ys` (`ps[j] = lcs xs (ys.drop j)`), computes the row
for `x :: xs`. -/
def lcsRow (x : Char) : Str → List Nat → List Nat
  | [], _ => [0]
  | y :: ys, ps =>
    let tail := lcsRow x ys ps.tail
    let cur := if x = y then ps.tail.headD 0 + 1 else max (tail.headD 0) (ps.headD 0)
    cur :: tail

/-- Row-by-row LCS computation. -/
def lcsDP (xs ys : Str) : Nat :=
  (xs.foldr (fun x r => lcsRow x ys r) (List.replicate (ys.length + 1) 0)).headD 0

/-- Model of rapidfuzz `fuzz.ratio`: normalized InDel similarity scaled to
0..100, as an exact rational (the float rounding of rapidfuzz is immaterial
on the short strings in scope). -/
def fuzzScore (a b : Str) : ℚ :=
  if a.length + b.length = 0 then 100
  else mkRat (200 * lcsDP a b) (a.length + b.length)

/-- The scanning loop of `process.extractOne`: `b` is the current best
(choice, score) pair. -/
def scanBest (q : Str) : List Str → (Str × ℚ) → (Str × ℚ)
  | [], b => b
  | v :: vs, b => scanBest q vs (if b.2 < fuzzScore q v then (v, fuzzScore q v) else b)

/-- Model of `process.extractOne(q, choices, scorer=fuzz.ratio)`. -/
def extractOne (q : Str) : List Str → Option (Str × ℚ)
  | [] => none
  | v :: vs => some (scanBest q vs (v, fuzzScore q v))

/-- The canonical enum lists of the program. -/
def categoriesL : List Str :=
  ["учеба".toList, "работа".toList, "личное".toList, "досуг".toList, "другое".toList]

def prioritiesL : List Str :=
  ["высокий".toList, "средний".toList, "низкий".toList, "отсутствует".toList]

def statusesL : List Str :=
  ["выполнена".toList, "не выполнена".toList, "в процессе".toList]

/-- Model of `Task._normalize_value`: strip and lowercase the input, fuzzy
match it against the allowed values, reject below score 70. -/
def normalizeValue (input : Str) (valid : List Str) : Except Err Str :=
  let q := pyProcess input
  match extractOne q valid with
  | none => .error (.invalidEnum q valid)
  | some (best, sc) => if sc < 70 then .error (.invalidEnum q valid) else .ok best

/-! ### Civil date-time model (Python `datetime`)

`datetime` values are records of civil fields; `datetime + timedelta` is
modelled by day-stepping calendar arithmetic, which agrees with CPython's
ordinal-based arithmetic on all valid dates.  Overflow past year 9999 is
detected where the parser would observe CPython's `OverflowError`. -/

structure DateTime where
  year : Nat
  month : Nat
  day : Nat
  hour : Nat
  minute : Nat
  second : Nat
deriving DecidableEq, Repr

def isLeap (y : Nat) : Bool := (y % 4 = 0 && y % 100 ≠ 0) || y % 400 = 0

def daysInMonth (y m : Nat) : Nat :=
  if m = 2 then (if isLeap y then 29 else 28)
  else if m = 4 ∨ m = 6 ∨ m = 9 ∨ m = 11 then 30
  else 31

/-- The invariant Python's `datetime` constructor enforces. -/
def DateTime.Valid (d : DateTime) : Prop :=
  1 ≤ d.year ∧ d.year ≤ 9999 ∧ 1 ≤ d.month ∧ d.month ≤ 12 ∧
  1 ≤ d.day ∧ d.day ≤ daysInMonth d.year d.month ∧
  d.hour < 24 ∧ d.minute < 60 ∧ d.second < 60

instance (d : DateTime) : Decidable d.Valid := by
  unfold DateTime.Valid; infer_instance

def nextDay (d : DateTime) : DateTime :=
  if d.day < daysInMonth d.year d.month then { d with day := d.day + 1 }
  else if d.month < 12 then { d with day := 1, month := d.month + 1 }
  else { d with day := 1, month := 1, year := d.year + 1 }

def addDays (d : DateTime) : Nat → DateTime
  | 0 => d
  | n + 1 => addDays (nextDay d) n

/-- `d + timedelta(minutes=k)` (all the deltas the relative grammar builds
are nonnegative whole minutes). -/
def addMinutes (d : DateTime) (k : Nat) : DateTime :=
  addDays
    { d with hour := (d.hour * 60 + d.minute + k) % 1440 / 60,
             minute := (d.hour * 60 + d.minute + k) % 60 }
    ((d.hour * 60 + d.minute + k) / 1440)

/-- The `while month > 12: month -= 12; year += 1` loop of
`_parse_due_date`, with explicit fuel (the month value itself bounds the
iteration count). -/
def carryMAux : Nat → Nat → Nat → Nat × Nat
  | 0, y, m => (y, m)
  | f + 1, y, m => if 12 < m then carryMAux f (y + 1) (m - 12) else (y, m)

def carryM (y m : Nat) : Nat × Nat := carryMAux m y m

/-- Python `datetime.replace(year=y, month=m)`: validates the new fields
against the unchanged day and returns `ValueError` on failure. -/
def pyReplaceYM (d : DateTime) (y m : Nat) : Except Err DateTime :=
  if 1 ≤ y ∧ y ≤ 9999 ∧ 1 ≤ m ∧ m ≤ 12 ∧ d.day ≤ daysInMonth y m
  then .ok { d with year := y, month := m }
  else .error (.badReplace y m d.day)

/-! ### strftime / strptime models for the four formats the source uses -/

def digitCh (n : Nat) : Char := Char.ofNat (48 + n)

def pad2 (n : Nat) : Str := [digitCh (n / 10), digitCh (n % 10)]

def pad4 (n : Nat) : Str :=
  [digitCh (n / 1000), digitCh (n / 100 % 10), digitCh (n / 10 % 10), digitCh (n % 10)]

/-- `strftime('%Y-%m-%d %H:%M')`. -/
def fmtYMDHM (d : DateTime) : Str :=
  pad4 d.year ++ ['-'] ++ pad2 d.month ++ ['-'] ++ pad2 d.day ++ [' '] ++
    pad2 d.hour ++ [':'] ++ pad2 d.minute

/-- `str(datetime)` (microseconds zero): `YYYY-MM-DD HH:MM:SS`. -/
def strDT (d : DateTime) : Str := fmtYMDHM d ++ [':'] ++ pad2 d.second

/-- Take up to `k` leading ASCII digits. -/
def splitDigits : Nat → Str → (Str × Str)
  | 0, cs => ([], cs)
  | _ + 1, [] => ([], [])
  | k + 1, c :: cs =>
    if isDigitCh c then
      let p := splitDigits k cs
      (c :: p.1, p.2)
    else ([], c :: cs)

/-- Numeric strptime directive with 1..k digits (`%m`, `%d`, `%H`, `%M`, `%S`). -/
def readNum (k : Nat) (cs : Str) : Option (Nat × Str) :=
  match splitDigits k cs with
  | ([], _) => none
  | (ds, rest) => some (natOfDigits ds, rest)

/-- `%Y`: exactly four digits. -/
def readYear (cs : Str) : Option (Nat × Str) :=
  match splitDigits 4 cs with
  | (ds, rest) => if ds.length = 4 then some (natOfDigits ds, rest) else none

def expectCh (c : Char) (cs : Str) : Option Str :=
  match cs with
  | d :: rest => if d = c then some rest else none
  | [] => none

/-- A whitespace character in a strptime format matches a nonempty
whitespace run. -/
def expectWs (cs : Str) : Option Str :=
  match cs with
  | d :: rest => if isSpacePy d then some (rest.dropWhile isSpacePy) else none
  | [] => none

/-- strptime body for `"%Y-%m-%d"` (full consumption required). -/
def parseYMD (cs : Str) : Option (Nat × Nat × Nat) :=
  match readYear cs with
  | none => none
  | some (y, r1) =>
    match expectCh '-' r1 with
    | none => none
    | some r2 =>
      match readNum 2 r2 with
      | none => none
      | some (mo, r3) =>
        match expectCh '-' r3 with
        | none => none
        | some r4 =>
          match readNum 2 r4 with
          | none => none
          | some (d, r5) => if r5 = [] then some (y, mo, d) else none

/-- strptime body for `"%Y-%m-%d %H:%M"`. -/
def parseYMDHM (cs : Str) : Option (Nat × Nat × Nat × Nat × Nat) :=
  match readYear cs with
  | none => none
  | some (y, r1) =>
    match expectCh '-' r1 with
    | none => none
    | some r2 =>
      match readNum 2 r2 with
      | none => none
      | some (mo, r3) =>
        match expectCh '-' r3 with
        | none => none
        | some r4 =>
          match readNum 2 r4 with
          | none => none
          | some (d, r5) =>
            match expectWs r5 with
            | none => none
            | some r6 =>
              match readNum 2 r6 with
              | none => none
              | some (h, r7) =>
                match expectCh ':' r7 with
                | none => none
                | some r8 =>
                  match readNum 2 r8 with
                  | none => none
                  | some (mi, r9) => if r9 = [] then some (y, mo, d, h, mi) else none

/-- strptime body for `"%H:%M"`. -/
def parseHM (cs : Str) : Option (Nat × Nat) :=
  match readNum 2 cs with
  | none => none
  | some (h, r1) =>
    match expectCh ':' r1 with
    | none => none
    | some r2 =>
      match readNum 2 r2 with
      | none => none
      | some (mi, r3) => if r3 = [] then some (h, mi) else none

/-- strptime body for `"%Y-%m-%dT%H:%M:%S"`. -/
def parseYMDTHMS (cs : Str) : Option (Nat × Nat × Nat × Nat × Nat × Nat) :=
  match readYear cs with
  | none => none
  | some (y, r1) =>
    match expectCh '-' r1 with
    | none => none
    | some r2 =>
      match readNum 2 r2 with
      | none => none
      | some (mo, r3) =>
        match expectCh '-' r3 with
        | none => none
        | some r4 =>
          match readNum 2 r4 with
          | none => none
          | some (d, r5) =>
            match expectCh 'T' r5 with
            | none => none
            | some r6 =>
              match readNum 2 r6 with
              | none => none
              | some (h, r7) =>
                match expectCh ':' r7 with
                | none => none
                | some r8 =>
                  match readNum 2 r8 with
                  | none => none
                  | some (mi, r9) =>
                    match expectCh ':' r9 with
                    | none => none
                    | some r10 =>
                      match readNum 2 r10 with
                      | none => none
                      | some (sec, r11) =>
                        if r11 = [] then some (y, mo, d, h, mi, sec) else none

/-- `datetime(...)` construction: field validation. -/
def mkDT (y mo d h mi s : Nat) : Option DateTime :=
  if 1 ≤ y ∧ y ≤ 9999 ∧ 1 ≤ mo ∧ mo ≤ 12 ∧ 1 ≤ d ∧ d ≤ daysInMonth y mo ∧
     h < 24 ∧ mi < 60 ∧ s < 60
  then some ⟨y, mo, d, h, mi, s⟩ else none

/-- The absolute-format loop of `_parse_due_date`: the four formats tried
in source order; a strptime or construction failure falls through to the
next format; `%H:%M` is combined with today's date. -/
def tryFormats (now : DateTime) (s : Str) : Option DateTime :=
  match (parseYMD s).bind (fun p => mkDT p.1 p.2.1 p.2.2 0 0 0) with
  | some dt => some dt
  | none =>
    match (parseYMDHM s).bind (fun p => mkDT p.1 p.2.1 p.2.2.1 p.2.2.2.1 p.2.2.2.2 0) with
    | some dt => some dt
    | none =>
      match (parseHM s).bind (fun p => mkDT now.year now.month now.day p.1 p.2 0) with
      | some dt => some dt
      | none =>
        (parseYMDTHMS s).bind
          (fun p => mkDT p.1 p.2.1 p.2.2.1 p.2.2.2.1 p.2.2.2.2.1 p.2.2.2.2.2)

/-! ### The relative due-date grammar -/

/-- Python `\w` on the character repertoire this program can meet:
ASCII alphanumerics, underscore, and the Cyrillic block. -/
def isWordCh (c : Char) : Bool :=
  c.isAlphanum || c = '_' || (0x400 ≤ c.toNat && c.toNat ≤ 0x4FF)

/-- Python `str.split()` (split on whitespace runs, dropping empty parts),
with fuel bounded by the string length. -/
def pySplitF : Nat → Str → List Str
  | 0, _ => []
  | _ + 1, [] => []
  | f + 1, c :: cs =>
    if isSpacePy c then pySplitF f cs
    else ((c :: cs).takeWhile (fun d => !isSpacePy d)) ::
      pySplitF f ((c :: cs).dropWhile (fun d => !isSpacePy d))

def pySplit (s : Str) : List Str := pySplitF (s.length + 1) s

/-- `re.match(r"(\d+)\s*(\w+)", part)` on a whitespace-free token: the
greedy digit run is tried first; if no word character follows, the regex
engine gives back one digit (a digit is itself a word character), which is
how Python matches e.g. `"12"` as `('1', '2')`.  Returns
(value of group 1, group 2). -/
def tokMatch (t : Str) : Option (Nat × Str) :=
  let ds := t.takeWhile isDigitCh
  let rest := t.dropWhile isDigitCh
  if ds.isEmpty then none
  else
    let wordOk := match rest with
      | c :: _ => isWordCh c
      | [] => false
    if wordOk then some (natOfDigits ds, rest.takeWhile isWordCh)
    else if 2 ≤ ds.length then some (natOfDigits ds.dropLast, [ds.getLastD '0'])
    else none

def yearUnits : List Str :=
  ["year".toList, "years".toList, "y".toList, "год".toList, "годы".toList]

def monthUnits : List Str :=
  ["month".toList, "months".toList, "mo".toList, "месяц".toList, "месяцы".toList]

def dayUnits : List Str :=
  ["day".toList, "days".toList, "d".toList, "день".toList, "дни".toList]

def hourUnits : List Str :=
  ["hour".toList, "hours".toList, "h".toList, "час".toList, "часы".toList]

def minuteUnits : List Str :=
  ["minute".toList, "minutes".toList, "m".toList, "минута".toList, "минуты".toList]

/-- The flattened synonym list `[key for sublist in units.values() for key in
sublist]` (insertion order of the dict). -/
def unitsAll : List Str := yearUnits ++ monthUnits ++ dayUnits ++ hourUnits ++ minuteUnits

/-- Accumulator of the relative-date loop: whether any token matched, the
year/month field increments, and the day/hour/minute duration in minutes. -/
structure RelAcc where
  matched : Bool
  years : Nat
  months : Nat
  minutes : Nat
deriving DecidableEq, Repr

/-- One iteration of the token loop: a token that does not match the
pattern is skipped silently; a matching token has its unit word lowercased
and normalized (an enum failure propagates), then the value is added to the
appropriate accumulator field. -/
def relStep (acc : RelAcc) (t : Str) : Except Err RelAcc :=
  match tokMatch t with
  | none => .ok acc
  | some (v, u) =>
    match normalizeValue (pyLower u) unitsAll with
    | .error e => .error e
    | .ok nu =>
      .ok { matched := true,
            years := acc.years + (if nu ∈ yearUnits then v else 0),
            months := acc.months + (if nu ∈ monthUnits then v else 0),
            minutes := acc.minutes + (if nu ∈ dayUnits then v * 1440 else 0) +
              (if nu ∈ hourUnits then v * 60 else 0) +
              (if nu ∈ minuteUnits then v else 0) }

def relAccumAux : RelAcc → List Str → Except Err RelAcc
  | acc, [] => .ok acc
  | acc, t :: ts =>
    match relStep acc t with
    | .error e => .error e
    | .ok acc2 => relAccumAux acc2 ts

def relAccum (toks : List Str) : Except Err RelAcc :=
  relAccumAux ⟨false, 0, 0, 0⟩ toks

/-- The tail of `_parse_due_date` after the token loop: fail if no token
matched, add the duration to now (CPython would raise `OverflowError`
past year 9999), then apply the year/month carry via `replace`. -/
def relFinish (now : DateTime) (s : Str) (acc : RelAcc) : Except Err DateTime :=
  if acc.matched = false then .error (.invalidDueDate s)
  else
    let fut := addMinutes now acc.minutes
    if 9999 < fut.year then .error .dateOverflow
    else if acc.months ≠ 0 ∨ acc.years ≠ 0 then
      pyReplaceYM fut (carryM (fut.year + acc.years) (fut.month + acc.months)).1
        (carryM (fut.year + acc.years) (fut.month + acc.months)).2
    else .ok fut

/-- Model of `Task._parse_due_date` (with the call-time `now` made
explicit).  `None` resolves to now; otherwise the absolute formats are
tried in order and the relative grammar is the fallback. -/
def parseDueDate (now : DateTime) : Option Str → Except Err DateTime
  | none => .ok now
  | some s =>
    match tryFormats now s with
    | some dt => .ok dt
    | none =>
      match relAccum (pySplit s) with
      | .error e => .error e
      | .ok acc => relFinish now s acc

/-! ### A small regular-expression engine

Models the `re` module on the feature subset the source exercises
(literals, escapes, `.`, character classes with ranges, `*`, `+`, `?`,
leading `^`); `re.match` anchors at the start, `re.search` tries every
position.  Matching is fuel-bounded: the fuel chosen in `reTry` dominates
the depth of the lexicographic (text, pattern) recursion. -/

inductive RAtom where
  | any : RAtom
  | lit (c : Char) : RAtom
  | cls (neg : Bool) (items : List (Char × Char)) : RAtom
deriving DecidableEq, Repr

inductive RQuant where
  | one | star | plus | opt
deriving DecidableEq, Repr

def atomMatch : RAtom → Char → Bool
  | .any, _ => true
  | .lit c, d => c = d
  | .cls neg items, d =>
    let inCls := items.any fun p => p.1 ≤ d && d ≤ p.2
    if neg then !inCls else inCls

/-- Parse the inside of a character class up to the closing bracket. -/
def compileCls : Str → List (Char × Char) → (List (Char × Char) × Str)
  | [], acc => (acc.reverse, [])
  | ']' :: rest, acc => (acc.reverse, rest)
  | a :: '-' :: b :: rest, acc =>
    if b = ']' then (((a, a) :: ('-', '-') :: acc).reverse, rest)
    else compileCls rest ((a, b) :: acc)
  | c :: rest, acc => compileCls rest ((c, c) :: acc)

def quantOf (rest : Str) : RQuant × Str :=
  match rest with
  | '*' :: r => (.star, r)
  | '+' :: r => (.plus, r)
  | '?' :: r => (.opt, r)
  | r => (.one, r)

def compileItems : Nat → Str → List (RAtom × RQuant)
  | 0, _ => []
  | _ + 1, [] => []
  | f + 1, '\\' :: c :: rest =>
    let q := quantOf rest
    (RAtom.lit c, q.1) :: compileItems f q.2
  | f + 1, '[' :: rest =>
    let negp := match rest with
      | '^' :: r => (true, r)
      | r => (false, r)
    let p := compileCls negp.2 []
    let q := quantOf p.2
    (RAtom.cls negp.1 p.1, q.1) :: compileItems f q.2
  | f + 1, '.' :: rest =>
    let q := quantOf rest
    (RAtom.any, q.1) :: compileItems f q.2
  | f + 1, c :: rest =>
    let q := quantOf rest
    (RAtom.lit c, q.1) :: compileItems f q.2

structure RePat where
  anchored : Bool
  items : List (RAtom × RQuant)
deriving DecidableEq, Repr

def compileRe (p : Str) : RePat :=
  match p with
  | '^' :: rest => ⟨true, compileItems rest.length rest⟩
  | _ => ⟨false, compileItems p.length p⟩

/-- Backtracking matcher with fuel; matches a prefix of `s` against the
items (trailing text is allowed, as with Python match objects). -/
def reMF : Nat → List (RAtom × RQuant) → Str → Bool
  | 0, _, _ => false
  | _ + 1, [], _ => true
  | f + 1, (a, .one) :: ps, s =>
    match s with
    | [] => false
    | c :: s2 => atomMatch a c && reMF f ps s2
  | f + 1, (a, .opt) :: ps, s =>
    reMF f ps s ||
      (match s with
       | [] => false
       | c :: s2 => atomMatch a c && reMF f ps s2)
  | f + 1, (a, .star) :: ps, s =>
    reMF f ps s ||
      (match s with
       | [] => false
       | c :: s2 => atomMatch a c && reMF f ((a, .star) :: ps) s2)
  | f + 1, (a, .plus) :: ps, s =>
    match s with
    | [] => false
    | c :: s2 => atomMatch a c && reMF f ((a, .star) :: ps) s2

def reTry (items : List (RAtom × RQuant)) (s : Str) : Bool :=
  reMF ((s.length + 1) * (items.length + 2)) items s

def searchPos (items : List (RAtom × RQuant)) : Str → Bool
  | [] => reTry items []
  | c :: s2 => reTry items (c :: s2) || searchPos items s2

/-- `re.match(pat, s)` as a boolean. -/
def pyReMatch (pat : Str) (s : Str) : Bool :=
  reTry (compileRe pat).items s

/-- `re.search(pat, s)` as a boolean. -/
def pyReSearch (pat : Str) (s : Str) : Bool :=
  let p := compileRe pat
  if p.anchored then reTry p.items s else searchPos p.items s

/-- The title validation of `Task.__init__`:
`re.match(r"^[A-Za-zА-Яа-я0-9]", title)`. -/
def titleCheck (title : Str) : Bool :=
  pyReMatch "^[A-Za-zА-Яа-я0-9]".toList title

/-! ### The Task entity -/

structure TaskR where
  id : Int
  title : Str
  description : Str
  category : Str
  due : DateTime
  priority : Str
  status : Str
deriving DecidableEq, Repr

/-- Id assignment of `Task.__init__`: without an explicit id the
class-level counter supplies the id and advances; with an explicit id `k`
the counter becomes `max k counter + 1`. -/
def assignId : Option Int → Int → Int × Int
  | none, c => (c, c + 1)
  | some k, c => (k, max k c + 1)

/-- Model of `Task.__init__` with the call-time `now` and the class-level
counter threaded explicitly.  Returns the constructed task and the new
counter value. -/
def mkTask (now : DateTime) (counter : Int) (title : Str) (description : Option Str)
    (category : Str) (due : Option Str) (pri : Str) (status : Str)
    (idArg : Option Int) : Except Err (TaskR × Int) :=
  if titleCheck title = false then .error .invalidTitle
  else
    let desc := match description with
      | none => []
      | some s => if s.isEmpty then [] else s
    match normalizeValue category categoriesL with
    | .error e => .error e
    | .ok cat =>
      match normalizeValue pri prioritiesL with
      | .error e => .error e
      | .ok pr =>
        match normalizeValue status statusesL with
        | .error e => .error e
        | .ok st =>
          match parseDueDate now due with
          | .error e => .error e
          | .ok dd =>
            let p := assignId idArg counter
            .ok (⟨p.1, title, desc, cat, dd, pr, st⟩, p.2)

/-- The persisted record shape of `Task.to_dict` /
the JSON objects `_load_tasks` reads. -/
structure TaskRec where
  id : Int
  title : Str
  description : Str
  category : Str
  due_date : Option Str
  priority : Str
  status : Str
deriving DecidableEq, Repr

/-- `Task.to_dict`: `due_date` rendered with `strftime('%Y-%m-%d %H:%M')`
(a `datetime` is always truthy, so the `None` branch is dead). -/
def toRecord (t : TaskR) : TaskRec :=
  ⟨t.id, t.title, t.description, t.category, some (fmtYMDHM t.due), t.priority, t.status⟩

/-- One record step of `TaskManager._load_tasks`: construct a `Task` from
the raw record fields, re-validating everything. -/
def loadRecord (now : DateTime) (counter : Int) (r : TaskRec) : Except Err (TaskR × Int) :=
  mkTask now counter r.title (some r.description) r.category r.due_date r.priority r.status
    (some r.id)

/-- The ids produced by creating `n` tasks without explicit ids, starting
from counter `c`. -/
def autoIds (c : Int) : Nat → List Int
  | 0 => []
  | n + 1 => c :: autoIds (c + 1) n

/-- The counter after adopting a list of explicit ids (a reload). -/
def adoptIds (c : Int) (ids : List Int) : Int :=
  ids.foldl (fun cc k => (assignId (some k) cc).2) c

/-! ### String renderings used by the search functions -/

def natDigitsF : Nat → Nat → Str
  | 0, _ => []
  | f + 1, n => if n = 0 then [] else natDigitsF f (n / 10) ++ [digitCh (n % 10)]

def natStr (n : Nat) : Str := if n = 0 then ['0'] else natDigitsF (n + 1) n

/-- Python `str(i)` for an int. -/
def intStr (i : Int) : Str := if i < 0 then '-' :: natStr i.natAbs else natStr i.natAbs

/-- `s.startswith(p)` (pattern first). -/
def isPre : Str → Str → Bool
  | [], _ => true
  | _ :: _, [] => false
  | p :: ps, c :: cs => p = c && isPre ps cs

/-- `needle in hay` (substring containment). -/
def hasSub (n : Str) : Str → Bool
  | [] => isPre n []
  | c :: cs => isPre n (c :: cs) || hasSub n cs

/-- The attribute names `search_by_prefix` / `search_by_term` can be given;
`getattr` plus `str()` yields the field's string rendering. -/
inductive Field where
  | title | description | category | due_date | priority | status | id
deriving DecidableEq, Repr

def getField (t : TaskR) : Field → Str
  | .title => t.title
  | .description => t.description
  | .category => t.category
  | .due_date => strDT t.due
  | .priority => t.priority
  | .status => t.status
  | .id => intStr t.id

/-! ### TaskManager operations -/

/-- `search_by_regex`: the pattern is searched in title, description,
category and status only. -/
def searchRegexT (pat : Str) (ts : List TaskR) : List TaskR :=
  ts.filter fun t =>
    pyReSearch pat t.title || pyReSearch pat t.description ||
    pyReSearch pat t.category || pyReSearch pat t.status

/-- `search_by_prefix`. -/
def searchPreT (p : Str) (field : Option Field) (ts : List TaskR) : List TaskR :=
  match field with
  | some f => ts.filter fun t => isPre p (getField t f)
  | none =>
    ts.filter fun t =>
      isPre p t.title || isPre p t.description || isPre p t.category ||
      isPre p t.status || isPre p (intStr t.id) || isPre p (strDT t.due)

/-- `search_by_term`. -/
def searchTermT (q : Str) (field : Option Field) (ts : List TaskR) : List TaskR :=
  match field with
  | some f => ts.filter fun t => hasSub q (getField t f)
  | none =>
    ts.filter fun t =>
      hasSub q t.title || hasSub q t.description || hasSub q t.category ||
      hasSub q t.status || hasSub q (strDT t.due)

/-- `search_tasks`: dispatch on the query's leading character.  A leading
`/` selects regex search on `query[1:-1]`; a leading `^` selects prefix
search on the remainder; otherwise substring search. -/
def searchTasks (q : Str) (field : Option Field) (ts : List TaskR) : List TaskR :=
  if isPre ['/'] q then searchRegexT (q.drop 1).dropLast ts
  else if isPre ['^'] q then searchPreT (q.drop 1) field ts
  else searchTermT q field ts

/-- `remove_task`: note the truthiness test `if task_id:` — id 0 (and
`None`) skip the filter; the file is rewritten unconditionally. -/
def removeTask (taskId : Option Int) (ts : List TaskR) : List TaskR :=
  match taskId with
  | some k => if k ≠ 0 then ts.filter (fun t => t.id ≠ k) else ts
  | none => ts

/-- The keyword arguments of `update_task`. -/
structure UpdArgs where
  title : Option Str
  description : Option Str
  category : Option Str
  due_date : Option Str
  priority : Option Str
  status : Option Str
deriving DecidableEq, Repr

def pyTruthyStr : Option Str → Bool
  | none => false
  | some s => !s.isEmpty

def updCategory (a : UpdArgs) (t : TaskR) : TaskR × Option Err :=
  if pyTruthyStr a.category then
    match normalizeValue (a.category.getD []) categoriesL with
    | .error e => (t, some e)
    | .ok v => ({ t with category := v }, none)
  else (t, none)

def updDue (now : DateTime) (a : UpdArgs) (t : TaskR) : TaskR × Option Err :=
  if pyTruthyStr a.due_date then
    match parseDueDate now a.due_date with
    | .error e => (t, some e)
    | .ok v => ({ t with due := v }, none)
  else (t, none)

def updPri (a : UpdArgs) (t : TaskR) : TaskR × Option Err :=
  if pyTruthyStr a.priority then
    match normalizeValue (a.priority.getD []) prioritiesL with
    | .error e => (t, some e)
    | .ok v => ({ t with priority := v }, none)
  else (t, none)

def updStatus (a : UpdArgs) (t : TaskR) : TaskR × Option Err :=
  if pyTruthyStr a.status then
    match normalizeValue (a.status.getD []) statusesL with
    | .error e => (t, some e)
    | .ok v => ({ t with status := v }, none)
  else (t, none)

/-- `if title: task.title = title` — verbatim assignment, no validation. -/
def applyTitle (a : UpdArgs) (t : TaskR) : TaskR :=
  if pyTruthyStr a.title then { t with title := a.title.getD [] } else t

/-- `if description: task.description = description` — verbatim. -/
def applyDesc (a : UpdArgs) (t : TaskR) : TaskR :=
  if pyTruthyStr a.description then { t with description := a.description.getD [] } else t

/-- The fallible stages of `update_task` (category, due_date, priority,
status) in source order; the first failure aborts the rest but keeps the
earlier mutations. -/
def applyStages (now : DateTime) (a : UpdArgs) (t2 : TaskR) : TaskR × Option Err :=
  match updCategory a t2 with
  | (t3, some e) => (t3, some e)
  | (t3, none) =>
    match updDue now a t3 with
    | (t4, some e) => (t4, some e)
    | (t4, none) =>
      match updPri a t4 with
      | (t5, some e) => (t5, some e)
      | (t5, none) => updStatus a t5

/-- The field assignments of `update_task` on the matched task, in source
order (title, description, category, due_date, priority, status).  Title
and description are assigned verbatim (no validation); the enum fields are
re-normalized and the due date re-parsed; the first failure aborts the
remaining assignments but the earlier ones stay applied. -/
def applyUpd (now : DateTime) (a : UpdArgs) (t : TaskR) : TaskR × Option Err :=
  applyStages now a (applyDesc a (applyTitle a t))

/-- `update_task` over the task list: the first task with the requested id
is updated in place and the loop breaks; the file is saved only when every
requested assignment succeeded.  Returns (task list as left in memory,
propagated error, whether the file was rewritten). -/
def updateTaskL (now : DateTime) (a : UpdArgs) (tid : Int) :
    List TaskR → (List TaskR × Option Err × Bool)
  | [] => ([], none, false)
  | t :: ts =>
    if t.id = tid then
      match applyUpd now a t with
      | (t2, none) => (t2 :: ts, none, true)
      | (t2, some e) => (t2 :: ts, some e, false)
    else
      let r := updateTaskL now a tid ts
      (t :: r.1, r.2.1, r.2.2)

/-! ### Specification-side predicates and sample data for the claims -/

/-- C2's description of the per-task match condition, written clause by
clause from the claim (mode by leading character; the field lists named
there). -/
def c2Pred (q : Str) (field : Option Field) (t : TaskR) : Bool :=
  if isPre ['/'] q then
    let pat := (q.drop 1).dropLast
    pyReSearch pat t.title || pyReSearch pat t.description ||
      pyReSearch pat t.category || pyReSearch pat t.status
  else if isPre ['^'] q then
    let pre := q.drop 1
    match field with
    | some f => isPre pre (getField t f)
    | none =>
      isPre pre t.title || isPre pre t.description || isPre pre t.category ||
        isPre pre t.status || isPre pre (intStr t.id) || isPre pre (strDT t.due)
  else
    match field with
    | some f => hasSub q (getField t f)
    | none =>
      hasSub q t.title || hasSub q t.description || hasSub q t.category ||
        hasSub q t.status || hasSub q (strDT t.due)

/-- The enum-field invariant of §3: category, priority and status are
canonical values. -/
def EnumInv (t : TaskR) : Prop :=
  t.category ∈ categoriesL ∧ t.priority ∈ prioritiesL ∧ t.status ∈ statusesL

instance (t : TaskR) : Decidable (EnumInv t) := by
  unfold EnumInv; infer_instance

/-- A task as the constructor can actually produce it. -/
def TaskValid (t : TaskR) : Prop :=
  titleCheck t.title = true ∧ t.category ∈ categoriesL ∧ t.priority ∈ prioritiesL ∧
  t.status ∈ statusesL ∧ t.due.Valid

instance (t : TaskR) : Decidable (TaskValid t) := by
  unfold TaskValid; infer_instance

/-- Truncation to minute precision (what serialization keeps). -/
def minuteTrunc (d : DateTime) : DateTime := { d with second := 0 }

/-- A sample call time. -/
def dt0 : DateTime := ⟨2024, 6, 15, 10, 30, 45⟩

/-- A sample stored task (id 1, canonical enum fields). -/
def sampleTask : TaskR :=
  ⟨1, "Task 1".toList, [], "другое".toList, ⟨2024, 1, 1, 0, 0, 0⟩,
    "отсутствует".toList, "в процессе".toList⟩

/-- The same task with id 0 (the first id the counter ever assigns). -/
def task0 : TaskR := { sampleTask with id := 0 }

/-- Update arguments that change only the title, to an invalid one. -/
def updTitleBad : UpdArgs := ⟨some "!bad".toList, none, none, none, none, none⟩

/-- Update arguments with several fields where priority fails to
normalize. -/
def updPriBad : UpdArgs :=
  ⟨some "T2".toList, some "d2".toList, some "работа".toList, none,
    some "zzzz".toList, none⟩

/-! ### Supporting lemmas -/

theorem lcsSpec_nil_right : ∀ xs : Str, lcsSpec xs [] = 0 := by
  intro xs; cases xs <;> simp [lcsSpec]

theorem getD_tail_nat (ps : List Nat) (j : Nat) : ps.tail.getD j 0 = ps.getD (j + 1) 0 := by
  cases ps <;> simp [List.getD]

theorem headD_eq_getD (l : List Nat) : l.headD 0 = l.getD 0 0 := by
  cases l <;> simp [List.getD]

theorem lcsRow_spec (x : Char) (xs : Str) :
    ∀ (ys : Str) (ps : List Nat),
      (∀ j, ps.getD j 0 = lcsSpec xs (ys.drop j)) →
      ∀ j, (lcsRow x ys ps).getD j 0 = lcsSpec (x :: xs) (ys.drop j) := by
  intro ys
  induction ys with
  | nil =>
    intro ps _ j
    cases j <;> simp [lcsRow, lcsSpec_nil_right, List.getD]
  | cons y ys ih =>
    intro ps hps j
    have htail : ∀ j, ps.tail.getD j 0 = lcsSpec xs (ys.drop j) := by
      intro j
      rw [getD_tail_nat]
      simpa using hps (j + 1)
    have hrow : lcsRow x (y :: ys) ps =
        (if x = y then ps.tail.headD 0 + 1
         else max ((lcsRow x ys ps.tail).headD 0) (ps.headD 0)) :: lcsRow x ys ps.tail := rfl
    cases j with
    | zero =>
      have h0 : ps.headD 0 = lcsSpec xs (y :: ys) := by
        rw [headD_eq_getD]; simpa using hps 0
      have h1 : ps.tail.headD 0 = lcsSpec xs ys := by
        rw [headD_eq_getD]; simpa using htail 0
      have h2 : (lcsRow x ys ps.tail).headD 0 = lcsSpec (x :: xs) ys := by
        rw [headD_eq_getD]; simpa using ih ps.tail htail 0
      rw [hrow]
      simp only [List.getD_cons_zero, List.drop_zero]
      by_cases hxy : x = y
      · rw [if_pos hxy, h1]
        simp [lcsSpec, hxy]
      · rw [if_neg hxy, h2, h0]
        simp [lcsSpec, hxy]
    | succ j =>
      rw [hrow]
      simp only [List.getD_cons_succ]
      exact ih ps.tail htail j

theorem lcsDP_eq_spec (xs ys : Str) : lcsDP xs ys = lcsSpec xs ys := by
  have main : ∀ j, ((xs.foldr (fun x r => lcsRow x ys r)
      (List.replicate (ys.length + 1) 0)).getD j 0) = lcsSpec xs (ys.drop j) := by
    induction xs with
    | nil =>
      intro j
      have hrep : ∀ (n j : Nat), (List.replicate n (0 : Nat)).getD j 0 = 0 := by
        intro n
        induction n with
        | zero => intro j; simp [List.getD]
        | succ n ih => intro j; cases j <;> simp [List.replicate, List.getD, ih]
      simp [hrep, lcsSpec]
    | cons x xs ih =>
      intro j
      exact lcsRow_spec x xs ys _ ih j
  unfold lcsDP
  rw [headD_eq_getD]
  simpa using main 0

theorem lcsSpec_le_left : ∀ xs ys : Str, lcsSpec xs ys ≤ xs.length := by
  intro xs
  induction xs with
  | nil => intro ys; cases ys <;> simp [lcsSpec]
  | cons x xs ih =>
    intro ys
    induction ys with
    | nil => simp [lcsSpec]
    | cons y ys ihy =>
      by_cases hxy : x = y
      · simp only [lcsSpec, if_pos hxy]
        exact Nat.succ_le_succ (ih ys)
      · simp only [lcsSpec, if_neg hxy, List.length_cons]
        exact max_le ihy (Nat.le_succ_of_le (ih (y :: ys)))

theorem lcsSpec_le_right : ∀ xs ys : Str, lcsSpec xs ys ≤ ys.length := by
  intro xs
  induction xs with
  | nil => intro ys; cases ys <;> simp [lcsSpec]
  | cons x xs ih =>
    intro ys
    induction ys with
    | nil => simp [lcsSpec]
    | cons y ys ihy =>
      by_cases hxy : x = y
      · simp only [lcsSpec, if_pos hxy, List.length_cons]
        exact Nat.succ_le_succ (ih ys)
      · simp only [lcsSpec, if_neg hxy, List.length_cons]
        exact max_le (Nat.le_succ_of_le ihy) (ih (y :: ys))

theorem fuzzScore_nonneg (a b : Str) : 0 ≤ fuzzScore a b := by
  unfold fuzzScore
  split
  · norm_num
  · rw [Rat.mkRat_eq_div]
    positivity

theorem fuzzScore_le_100 (a b : Str) : fuzzScore a b ≤ 100 := by
  unfold fuzzScore
  split
  · norm_num
  · rename_i h
    rw [Rat.mkRat_eq_div]
    have hpos : (0 : ℚ) < ((a.length + b.length : Nat) : ℚ) := by
      have : 0 < a.length + b.length := Nat.pos_of_ne_zero h
      exact_mod_cast this
    rw [div_le_iff₀ hpos]
    have hla : lcsDP a b ≤ a.length := by rw [lcsDP_eq_spec]; exact lcsSpec_le_left a b
    have hlb : lcsDP a b ≤ b.length := by rw [lcsDP_eq_spec]; exact lcsSpec_le_right a b
    have hsum : ((200 * lcsDP a b : Int) : ℚ) ≤ 100 * ((a.length + b.length : Nat) : ℚ) := by
      have : 200 * lcsDP a b ≤ 100 * (a.length + b.length) := by omega
      exact_mod_cast this
    linarith

/-! ### rapidfuzz `process.extractOne`

Scans the choices in order keeping the best score; a later choice replaces
the current best only when its score is strictly greater, so on ties the
first choice wins.  Returns `none` exactly when the choice list is empty. -/

theorem scanBest_snd (q : Str) :
    ∀ (vs : List Str) (b : Str × ℚ), b.2 = fuzzScore q b.1 →
      (scanBest q vs b).2 = fuzzScore q (scanBest q vs b).1 := by
  intro vs
  induction vs with
  | nil => intro b hb; simpa [scanBest] using hb
  | cons v vs ih =>
    intro b hb
    simp only [scanBest]
    split
    · exact ih _ rfl
    · exact ih _ hb

/-- Characterization of the scan: either nothing beat the incoming best, or
the result is the first choice that strictly beats everything before it. -/
theorem scanBest_char (q : Str) :
    ∀ (vs : List Str) (b : Str × ℚ),
      (scanBest q vs b = b ∧ ∀ u ∈ vs, fuzzScore q u ≤ b.2) ∨
      (∃ V1 w V2, vs = V1 ++ w :: V2 ∧
        scanBest q vs b = (w, fuzzScore q w) ∧
        b.2 < fuzzScore q w ∧
        (∀ u ∈ V1, fuzzScore q u < fuzzScore q w) ∧
        (∀ u ∈ V2, fuzzScore q u ≤ fuzzScore q w)) := by
  intro vs
  induction vs with
  | nil => intro b; left; simp [scanBest]
  | cons v vs ih =>
    intro b
    by_cases hv : b.2 < fuzzScore q v
    · rcases ih (v, fuzzScore q v) with ⟨heq, hall⟩ | ⟨V1, w, V2, hsplit, heq, hgt, h1, h2⟩
      · right
        refine ⟨[], v, vs, by simp, ?_, hv, by simp, ?_⟩
        · simpa [scanBest, if_pos hv] using heq
        · intro u hu; exact hall u hu
      · right
        refine ⟨v :: V1, w, V2, by simp [hsplit], ?_, ?_, ?_, h2⟩
        · simpa [scanBest, if_pos hv] using heq
        · exact lt_trans hv hgt
        · intro u hu
          rcases List.mem_cons.mp hu with h | h
          · subst h; exact hgt
          · exact h1 u h
    · rcases ih b with ⟨heq, hall⟩ | ⟨V1, w, V2, hsplit, heq, hgt, h1, h2⟩
      · left
        constructor
        · simpa [scanBest, if_neg hv] using heq
        · intro u hu
          rcases List.mem_cons.mp hu with h | h
          · subst h; exact le_of_not_lt hv
          · exact hall u h
      · right
        refine ⟨v :: V1, w, V2, by simp [hsplit], ?_, hgt, ?_, h2⟩
        · simpa [scanBest, if_neg hv] using heq
        · intro u hu
          rcases List.mem_cons.mp hu with h | h
          · subst h; exact lt_of_le_of_lt (le_of_not_lt hv) hgt
          · exact h1 u h

/-- If normalization succeeds, the result is one of the allowed values, its
score is at least 70, and it is the first maximal-score candidate. -/
theorem normalizeValue_ok (input : Str) (valid : List Str) (v : Str)
    (h : normalizeValue input valid = .ok v) :
    v ∈ valid ∧ 70 ≤ fuzzScore (pyProcess input) v ∧
    ∃ V1 V2, valid = V1 ++ v :: V2 ∧
      (∀ u ∈ V1, fuzzScore (pyProcess input) u < fuzzScore (pyProcess input) v) ∧
      (∀ u ∈ V2, fuzzScore (pyProcess input) u ≤ fuzzScore (pyProcess input) v) := by
  unfold normalizeValue at h
  set q := pyProcess input with hq
  cases hvalid : valid with
  | nil => rw [hvalid] at h; simp [extractOne] at h
  | cons v0 vs =>
    rw [hvalid] at h
    simp only [extractOne] at h
    rcases hscan : scanBest q vs (v0, fuzzScore q v0) with ⟨a, sc⟩
    rw [hscan] at h
    simp only at h
    have hsnd : sc = fuzzScore q a := by
      have := scanBest_snd q vs (v0, fuzzScore q v0) rfl
      rw [hscan] at this
      simpa using this
    have hchar := scanBest_char q vs (v0, fuzzScore q v0)
    rw [hscan] at hchar
    by_cases hsc : sc < 70
    · rw [if_pos hsc] at h
      exact absurd h (by simp)
    · rw [if_neg hsc] at h
      have hv : a = v := Except.ok.inj h
      have h70 : 70 ≤ fuzzScore q v := by
        rw [← hv, ← hsnd]; exact le_of_not_lt hsc
      rcases hchar with ⟨heq, hall⟩ | ⟨V1, w, V2, hsplit, heq, hgt, h1, h2⟩
      · have hv0 : v = v0 := by rw [← hv]; exact congrArg Prod.fst heq
        refine ⟨by rw [hv0]; simp, h70, [], vs, by rw [hv0]; rfl, ?_, ?_⟩
        · intro u hu; exact absurd hu (List.not_mem_nil u)
        · intro u hu
          rw [hv0]
          simpa using hall u hu
      · have hw : v = w := by rw [← hv]; exact congrArg Prod.fst heq
        refine ⟨?_, h70, v0 :: V1, V2, ?_, ?_, ?_⟩
        · rw [hw, hsplit]; simp
        · rw [hw, hsplit]; rfl
        · intro u hu
          rw [hw]
          rcases List.mem_cons.mp hu with h | h
          · subst h; simpa using hgt
          · exact h1 u h
        · intro u hu
          rw [hw]
          exact h2 u hu

/-- If every allowed value scores below 70 (in particular if the list is
empty) normalization fails with the enum error naming the processed input
and the allowed set. -/
theorem normalizeValue_err (input : Str) (valid : List Str)
    (h : ∀ v ∈ valid, fuzzScore (pyProcess input) v < 70) :
    normalizeValue input valid = .error (.invalidEnum (pyProcess input) valid) := by
  unfold normalizeValue
  set q := pyProcess input with hq
  cases hvalid : valid with
  | nil => simp [extractOne]
  | cons v0 vs =>
    simp only [extractOne]
    rcases hscan : scanBest q vs (v0, fuzzScore q v0) with ⟨a, sc⟩
    have hsnd : sc = fuzzScore q a := by
      have := scanBest_snd q vs (v0, fuzzScore q v0) rfl
      rw [hscan] at this
      simpa using this
    have hmem : a ∈ v0 :: vs := by
      rcases scanBest_char q vs (v0, fuzzScore q v0) with ⟨heq, _⟩ | ⟨V1, w, V2, hsplit, heq, _, _, _⟩
      · rw [hscan] at heq
        have : a = v0 := congrArg Prod.fst heq
        simp [this]
      · rw [hscan] at heq
        have : a = w := congrArg Prod.fst heq
        simp [this, hsplit]
    have hsc : sc < 70 := by
      rw [hsnd]
      exact h a (by rw [hvalid]; exact hmem)
    simp [hsc]

theorem addMinutes_zero (d : DateTime) (h : d.Valid) : addMinutes d 0 = d := by
  obtain ⟨_, _, _, _, _, _, hh, hm, _⟩ := h
  unfold addMinutes
  have htot : d.hour * 60 + d.minute + 0 < 1440 := by omega
  have h1 : (d.hour * 60 + d.minute + 0) / 1440 = 0 := Nat.div_eq_of_lt htot
  have h2 : (d.hour * 60 + d.minute + 0) % 1440 = d.hour * 60 + d.minute + 0 :=
    Nat.mod_eq_of_lt htot
  have h3 : (d.hour * 60 + d.minute + 0) % 1440 / 60 = d.hour := by omega
  have h4 : (d.hour * 60 + d.minute + 0) % 60 = d.minute := by omega
  rw [h1, h3, h4]
  rfl

theorem carryMAux_le (f y m : Nat) (h : m ≤ 12) : carryMAux f y m = (y, m) := by
  cases f with
  | zero => rfl
  | succ f => simp [carryMAux, Nat.not_lt.mpr h]

theorem carryM_le (y m : Nat) (h : m ≤ 12) : carryM y m = (y, m) := by
  unfold carryM; exact carryMAux_le m y m h

theorem carryM_once (y m : Nat) (h1 : 12 < m) (h2 : m ≤ 24) :
    carryM y m = (y + 1, m - 12) := by
  unfold carryM
  cases m with
  | zero => omega
  | succ n =>
    simp only [carryMAux, if_pos h1]
    exact carryMAux_le n (y + 1) (n + 1 - 12) (by omega)

theorem autoIds_mem : ∀ (n : Nat) (c i : Int), i ∈ autoIds c n → c ≤ i := by
  intro n
  induction n with
  | zero => intro c i h; simp [autoIds] at h
  | succ n ih =>
    intro c i h
    simp only [autoIds] at h
    rcases List.mem_cons.mp h with h | h
    · exact le_of_eq h.symm
    · have := ih (c + 1) i h
      omega

theorem autoIds_pairwise : ∀ (n : Nat) (c : Int), List.Pairwise (· < ·) (autoIds c n) := by
  intro n
  induction n with
  | zero => intro c; simp [autoIds]
  | succ n ih =>
    intro c
    simp only [autoIds]
    refine List.Pairwise.cons ?_ (ih (c + 1))
    intro i hi
    have := autoIds_mem n (c + 1) i hi
    omega

theorem adoptIds_ge : ∀ (ids : List Int) (c : Int), c ≤ adoptIds c ids := by
  intro ids
  induction ids with
  | nil => intro c; simp [adoptIds]
  | cons k ids ih =>
    intro c
    have h1 : adoptIds c (k :: ids) = adoptIds (max k c + 1) ids := rfl
    have h2 := ih (max k c + 1)
    rw [h1]
    omega

theorem adoptIds_gt : ∀ (ids : List Int) (c k : Int), k ∈ ids → k < adoptIds c ids := by
  intro ids
  induction ids with
  | nil => intro c k h; simp at h
  | cons j ids ih =>
    intro c k h
    have h1 : adoptIds c (j :: ids) = adoptIds (max j c + 1) ids := rfl
    rcases List.mem_cons.mp h with h | h
    · subst h
      have h2 := adoptIds_ge ids (max k c + 1)
      rw [h1]
      omega
    · rw [h1]
      exact ih (max j c + 1) k h

theorem normalizeValue_mem {input : Str} {valid : List Str} {v : Str}
    (h : normalizeValue input valid = .ok v) : v ∈ valid :=
  (normalizeValue_ok input valid v h).1

theorem updCategory_inv (a : UpdArgs) (t : TaskR) (h : EnumInv t) :
    EnumInv (updCategory a t).1 := by
  unfold updCategory
  split
  · cases hn : normalizeValue (a.category.getD []) categoriesL with
    | error e => simp only [hn]; exact h
    | ok v =>
      simp only [hn]
      exact ⟨normalizeValue_mem hn, h.2.1, h.2.2⟩
  · exact h

theorem updDue_inv (now : DateTime) (a : UpdArgs) (t : TaskR) (h : EnumInv t) :
    EnumInv (updDue now a t).1 := by
  unfold updDue
  split
  · cases hn : parseDueDate now a.due_date with
    | error e => simp only [hn]; exact h
    | ok v => simp only [hn]; exact h
  · exact h

theorem updPri_inv (a : UpdArgs) (t : TaskR) (h : EnumInv t) :
    EnumInv (updPri a t).1 := by
  unfold updPri
  split
  · cases hn : normalizeValue (a.priority.getD []) prioritiesL with
    | error e => simp only [hn]; exact h
    | ok v =>
      simp only [hn]
      exact ⟨h.1, normalizeValue_mem hn, h.2.2⟩
  · exact h

theorem updStatus_inv (a : UpdArgs) (t : TaskR) (h : EnumInv t) :
    EnumInv (updStatus a t).1 := by
  unfold updStatus
  split
  · cases hn : normalizeValue (a.status.getD []) statusesL with
    | error e => simp only [hn]; exact h
    | ok v =>
      simp only [hn]
      exact ⟨h.1, h.2.1, normalizeValue_mem hn⟩
  · exact h

theorem applyStages_inv (now : DateTime) (a : UpdArgs) (t : TaskR) (h : EnumInv t) :
    EnumInv (applyStages now a t).1 := by
  unfold applyStages
  rcases hc : updCategory a t with ⟨t3, e3⟩
  have h3 : EnumInv t3 := by
    have := updCategory_inv a t h
    rw [hc] at this
    exact this
  cases e3 with
  | some e => simp only [hc]; exact h3
  | none =>
    simp only [hc]
    rcases hd : updDue now a t3 with ⟨t4, e4⟩
    have h4 : EnumInv t4 := by
      have := updDue_inv now a t3 h3
      rw [hd] at this
      exact this
    cases e4 with
    | some e => simp only [hd]; exact h4
    | none =>
      simp only [hd]
      rcases hp : updPri a t4 with ⟨t5, e5⟩
      have h5 : EnumInv t5 := by
        have := updPri_inv a t4 h4
        rw [hp] at this
        exact this
      cases e5 with
      | some e => simp only [hp]; exact h5
      | none => simp only [hp]; exact updStatus_inv a t5 h5

theorem applyUpd_inv (now : DateTime) (a : UpdArgs) (t : TaskR) (h : EnumInv t) :
    EnumInv (applyUpd now a t).1 := by
  unfold applyUpd
  refine applyStages_inv now a _ ?_
  have h1 : EnumInv (applyTitle a t) := by
    unfold applyTitle
    split <;> exact h
  unfold applyDesc
  split <;> exact h1

theorem isDigitCh_digitCh (n : Nat) (h : n < 10) : isDigitCh (digitCh n) = true := by
  interval_cases n <;> decide

theorem isSpacePy_digitCh (n : Nat) (h : n < 10) : isSpacePy (digitCh n) = false := by
  interval_cases n <;> decide

theorem toNat_digitCh (n : Nat) (h : n < 10) : (digitCh n).toNat = 48 + n := by
  interval_cases n <;> decide

theorem splitDigits_exact : ∀ (ds rest : Str),
    (∀ c ∈ ds, isDigitCh c = true) →
    splitDigits ds.length (ds ++ rest) = (ds, rest) := by
  intro ds
  induction ds with
  | nil => intro rest _; rfl
  | cons c ds ih =>
    intro rest h
    have hc := h c (List.mem_cons_self c ds)
    have hrec := ih rest (fun d hd => h d (List.mem_cons_of_mem c hd))
    simp [splitDigits, hc, hrec]

theorem pad2_all_digits (n : Nat) (h : n < 100) : ∀ c ∈ pad2 n, isDigitCh c = true := by
  intro c hc
  unfold pad2 at hc
  rcases List.mem_cons.mp hc with rfl | hc
  · exact isDigitCh_digitCh _ (by omega)
  · rcases List.mem_cons.mp hc with rfl | hc
    · exact isDigitCh_digitCh _ (by omega)
    · exact absurd hc (List.not_mem_nil c)

theorem pad4_all_digits (n : Nat) (h : n < 10000) : ∀ c ∈ pad4 n, isDigitCh c = true := by
  intro c hc
  unfold pad4 at hc
  rcases List.mem_cons.mp hc with rfl | hc
  · exact isDigitCh_digitCh _ (by omega)
  · rcases List.mem_cons.mp hc with rfl | hc
    · exact isDigitCh_digitCh _ (by omega)
    · rcases List.mem_cons.mp hc with rfl | hc
      · exact isDigitCh_digitCh _ (by omega)
      · rcases List.mem_cons.mp hc with rfl | hc
        · exact isDigitCh_digitCh _ (by omega)
        · exact absurd hc (List.not_mem_nil c)

theorem natOfDigits_pad2 (n : Nat) (h : n < 100) : natOfDigits (pad2 n) = n := by
  unfold natOfDigits pad2
  simp only [List.foldl]
  rw [toNat_digitCh _ (by omega : n / 10 < 10), toNat_digitCh _ (by omega : n % 10 < 10)]
  omega

theorem natOfDigits_pad4 (n : Nat) (h : n < 10000) : natOfDigits (pad4 n) = n := by
  unfold natOfDigits pad4
  simp only [List.foldl]
  rw [toNat_digitCh _ (by omega : n / 1000 < 10),
    toNat_digitCh _ (by omega : n / 100 % 10 < 10),
    toNat_digitCh _ (by omega : n / 10 % 10 < 10),
    toNat_digitCh _ (by omega : n % 10 < 10)]
  omega

theorem readNum2_pad2 (n : Nat) (rest : Str) (h : n < 100) :
    readNum 2 (pad2 n ++ rest) = some (n, rest) := by
  unfold readNum
  have hs : splitDigits 2 (pad2 n ++ rest) = (pad2 n, rest) := by
    have hl : (pad2 n).length = 2 := rfl
    rw [← hl]
    exact splitDigits_exact (pad2 n) rest (pad2_all_digits n h)
  rw [hs]
  show some (natOfDigits (pad2 n), rest) = some (n, rest)
  rw [natOfDigits_pad2 n h]

theorem readYear_pad4 (n : Nat) (rest : Str) (h : n < 10000) :
    readYear (pad4 n ++ rest) = some (n, rest) := by
  unfold readYear
  have hs : splitDigits 4 (pad4 n ++ rest) = (pad4 n, rest) := by
    have hl : (pad4 n).length = 4 := rfl
    rw [← hl]
    exact splitDigits_exact (pad4 n) rest (pad4_all_digits n h)
  rw [hs]
  show (if (pad4 n).length = 4 then some (natOfDigits (pad4 n), rest) else none) =
    some (n, rest)
  rw [if_pos (show (pad4 n).length = 4 from rfl), natOfDigits_pad4 n h]

theorem expectCh_self (c : Char) (r : Str) : expectCh c (c :: r) = some r := by
  simp [expectCh]

theorem expectWs_pad2 (n : Nat) (x : Str) (h : n < 100) :
    expectWs (' ' :: (pad2 n ++ x)) = some (pad2 n ++ x) := by
  show (if isSpacePy ' ' = true then some (List.dropWhile isSpacePy (pad2 n ++ x))
    else none) = some (pad2 n ++ x)
  rw [if_pos (by decide)]
  have : (pad2 n ++ x).dropWhile isSpacePy = pad2 n ++ x := by
    show ((digitCh (n / 10) :: (digitCh (n % 10) :: x))).dropWhile isSpacePy = _
    rw [List.dropWhile_cons_of_neg]
    · rfl
    · simp [isSpacePy_digitCh _ (by omega : n / 10 < 10)]
  rw [this]

/-- The canonical right-associated spelling of the `%Y-%m-%d %H:%M`
rendering. -/
theorem fmtYMDHM_shape (d : DateTime) :
    fmtYMDHM d = pad4 d.year ++ ('-' :: (pad2 d.month ++ ('-' :: (pad2 d.day ++
      (' ' :: (pad2 d.hour ++ (':' :: pad2 d.minute))))))) := by
  unfold fmtYMDHM
  simp [List.append_assoc]

theorem parseYMDHM_fmt (d : DateTime) (hv : d.Valid) :
    parseYMDHM (fmtYMDHM d) = some (d.year, d.month, d.day, d.hour, d.minute) := by
  obtain ⟨h1, h2, h3, h4, h5, h6, h7, h8, h9⟩ := hv
  have hmo : d.month < 100 := by omega
  have hda : d.day < 100 := by
    have : daysInMonth d.year d.month ≤ 31 := by
      unfold daysInMonth
      split
      · split <;> omega
      · split <;> omega
    omega
  have hy : d.year < 10000 := by omega
  have f1 := readYear_pad4 d.year
    ('-' :: (pad2 d.month ++ ('-' :: (pad2 d.day ++
      (' ' :: (pad2 d.hour ++ (':' :: pad2 d.minute))))))) hy
  have f2 := readNum2_pad2 d.month
    ('-' :: (pad2 d.day ++ (' ' :: (pad2 d.hour ++ (':' :: pad2 d.minute))))) hmo
  have f3 := readNum2_pad2 d.day
    (' ' :: (pad2 d.hour ++ (':' :: pad2 d.minute))) hda
  have f4 := expectWs_pad2 d.hour (':' :: pad2 d.minute) (by omega)
  have f5 := readNum2_pad2 d.hour (':' :: pad2 d.minute) (by omega)
  have f6 : readNum 2 (pad2 d.minute ++ []) = some (d.minute, []) :=
    readNum2_pad2 d.minute [] (by omega)
  rw [List.append_nil] at f6
  rw [parseYMDHM, fmtYMDHM_shape]
  rw [f1]
  simp only [expectCh_self, f2, f3, f4, f5, f6]
  simp

theorem parseYMD_fmt (d : DateTime) (hv : d.Valid) : parseYMD (fmtYMDHM d) = none := by
  obtain ⟨h1, h2, h3, h4, h5, h6, h7, h8, h9⟩ := hv
  have hmo : d.month < 100 := by omega
  have hda : d.day < 100 := by
    have : daysInMonth d.year d.month ≤ 31 := by
      unfold daysInMonth
      split
      · split <;> omega
      · split <;> omega
    omega
  have hy : d.year < 10000 := by omega
  have f1 := readYear_pad4 d.year
    ('-' :: (pad2 d.month ++ ('-' :: (pad2 d.day ++
      (' ' :: (pad2 d.hour ++ (':' :: pad2 d.minute))))))) hy
  have f2 := readNum2_pad2 d.month
    ('-' :: (pad2 d.day ++ (' ' :: (pad2 d.hour ++ (':' :: pad2 d.minute))))) hmo
  have f3 := readNum2_pad2 d.day
    (' ' :: (pad2 d.hour ++ (':' :: pad2 d.minute))) hda
  rw [parseYMD, fmtYMDHM_shape]
  rw [f1]
  simp only [expectCh_self, f2, f3]
  simp

theorem tryFormats_fmt (now : DateTime) (d : DateTime) (hv : d.Valid) :
    tryFormats now (fmtYMDHM d) = some (minuteTrunc d) := by
  obtain ⟨h1, h2, h3, h4, h5, h6, h7, h8, h9⟩ := hv
  have hmk : mkDT d.year d.month d.day d.hour d.minute 0 = some (minuteTrunc d) := by
    unfold mkDT
    rw [if_pos ⟨h1, h2, h3, h4, h5, h6, h7, h8, by omega⟩]
    rfl
  unfold tryFormats
  rw [parseYMD_fmt d ⟨h1, h2, h3, h4, h5, h6, h7, h8, h9⟩,
    parseYMDHM_fmt d ⟨h1, h2, h3, h4, h5, h6, h7, h8, h9⟩]
  simp [hmk]

theorem parseDueDate_fmt (now : DateTime) (d : DateTime) (hv : d.Valid) :
    parseDueDate now (some (fmtYMDHM d)) = .ok (minuteTrunc d) := by
  simp only [parseDueDate]
  rw [tryFormats_fmt now d hv]

theorem normCat : ∀ v ∈ categoriesL, normalizeValue v categoriesL = .ok v := by decide

theorem normPri : ∀ v ∈ prioritiesL, normalizeValue v prioritiesL = .ok v := by decide

theorem normStat : ∀ v ∈ statusesL, normalizeValue v statusesL = .ok v := by decide

theorem relStep_skip (acc : RelAcc) (t : Str) (h : tokMatch t = none) :
    relStep acc t = .ok acc := by
  simp [relStep, h]

set_option maxRecDepth 8000 in
theorem relStep_matched (acc acc2 : RelAcc) (t : Str) (p : Nat × Str)
    (hm : tokMatch t = some p) (h : relStep acc t = .ok acc2) : acc2.matched = true := by
  obtain ⟨v, u⟩ := p
  unfold relStep at h
  rw [hm] at h
  rcases hn : normalizeValue (pyLower u) unitsAll with e | nu
  · simp only [hn] at h
    exact absurd h (by simp)
  · simp only [hn, Except.ok.injEq] at h
    rw [← h]

theorem relAccumAux_filter : ∀ (toks : List Str) (acc : RelAcc),
    relAccumAux acc toks =
      relAccumAux acc (toks.filter fun t => (tokMatch t).isSome) := by
  intro toks
  induction toks with
  | nil => intro acc; rfl
  | cons t ts ih =>
    intro acc
    by_cases h : (tokMatch t).isSome
    · rw [List.filter_cons_of_pos (by simpa using h)]
      cases hs : relStep acc t with
      | error e => simp [relAccumAux, hs]
      | ok acc2 => simp only [relAccumAux, hs]; exact ih acc2
    · have hnone : tokMatch t = none := by
        cases htm : tokMatch t with
        | none => rfl
        | some p => rw [htm] at h; simp at h
      rw [List.filter_cons_of_neg (by simpa using h)]
      simp only [relAccumAux, relStep_skip acc t hnone]
      exact ih acc

theorem relAccumAux_matched : ∀ (toks : List Str) (acc acc2 : RelAcc),
    relAccumAux acc toks = .ok acc2 →
    (acc2.matched = true ↔
      acc.matched = true ∨ ∃ t ∈ toks, (tokMatch t).isSome = true) := by
  intro toks
  induction toks with
  | nil =>
    intro acc acc2 h
    simp only [relAccumAux, Except.ok.injEq] at h
    subst h
    simp
  | cons t ts ih =>
    intro acc acc2 h
    simp only [relAccumAux] at h
    cases hs : relStep acc t with
    | error e => rw [hs] at h; exact absurd h (by simp)
    | ok acc3 =>
      rw [hs] at h
      have hih := ih acc3 acc2 h
      cases htm : tokMatch t with
      | none =>
        have : acc3 = acc := by
          have := relStep_skip acc t htm
          rw [this] at hs
          exact (Except.ok.inj hs).symm
        subst this
        rw [hih]
        constructor
        · rintro (hm | ⟨u, hu, hsome⟩)
          · exact Or.inl hm
          · exact Or.inr ⟨u, List.mem_cons_of_mem t hu, hsome⟩
        · rintro (hm | ⟨u, hu, hsome⟩)
          · exact Or.inl hm
          · rcases List.mem_cons.mp hu with rfl | hu2
            · rw [htm] at hsome; simp at hsome
            · exact Or.inr ⟨u, hu2, hsome⟩
      | some p =>
        have h3 : acc3.matched = true := relStep_matched acc acc3 t p htm hs
        rw [hih]
        constructor
        · intro _
          exact Or.inr ⟨t, List.mem_cons_self t ts, by rw [htm]; rfl⟩
        · intro _
          exact Or.inl h3

theorem relAccumAux_nomatch : ∀ (toks : List Str) (acc : RelAcc),
    (∀ t ∈ toks, tokMatch t = none) → relAccumAux acc toks = .ok acc := by
  intro toks
  induction toks with
  | nil => intro acc _; rfl
  | cons t ts ih =>
    intro acc h
    simp only [relAccumAux, relStep_skip acc t (h t (List.mem_cons_self t ts))]
    exact ih acc (fun u hu => h u (List.mem_cons_of_mem t hu))

/-! ### The claims -/

/-- C6: ids come from a process-wide counter: creating N tasks without
explicit ids yields pairwise-distinct, strictly-increasing ids; an explicit
id K moves the counter to max(K, counter) + 1 so the next auto id exceeds
K; after adopting any list of reloaded ids, fresh auto ids never collide
with them. -/
theorem claim_C6 :
    (∀ (c : Int) (n : Nat),
      List.Pairwise (· < ·) (autoIds c n) ∧ (autoIds c n).Nodup) ∧
    (∀ c k : Int, (assignId (some k) c).2 = max k c + 1 ∧
      k < (assignId none (assignId (some k) c).2).1) ∧
    (∀ (c : Int) (ids : List Int) (n : Nat) (k : Int), k ∈ ids →
      ∀ i ∈ autoIds (adoptIds c ids) n, k < i) := by
  refine ⟨?_, ?_, ?_⟩
  · intro c n
    exact ⟨autoIds_pairwise n c, (autoIds_pairwise n c).imp (fun h => ne_of_lt h)⟩
  · intro c k
    refine ⟨rfl, ?_⟩
    simp only [assignId]
    omega
  · intro c ids n k hk i hi
    have h1 := adoptIds_gt ids c k hk
    have h2 := autoIds_mem n (adoptIds c ids) i hi
    omega

theorem claim_C6_witness :
    (5 : Int) ∈ [(5 : Int), 2] ∧ (7 : Int) ∈ autoIds (adoptIds 0 [5, 2]) 1 ∧ (5 : Int) < 7 :=
  ⟨by decide, by decide, claim_C6.2.2 0 [5, 2] 1 5 (by decide) 7 (by decide)⟩

/-- C7: `remove_task` guards the filter with the truthy test
`if task_id:`, so removing the task with id 0 — a legitimately assigned id,
the counter starts at 0 — silently removes nothing, while nonzero ids are
removed exactly.  Evaluates the code at the failing input (id 0 present,
`remove_task(0)`) and at a nonzero id for contrast. -/
theorem claim_C7 :
    task0.id = 0 ∧ removeTask (some 0) [task0] = [task0] ∧
    removeTask (some 1) [sampleTask, task0] = [task0] := by decide

/-- C8 (amended): the title check accepts exactly the titles whose first
character lies in the ASCII letter ranges, the Cyrillic ranges А-Я / а-я,
or the digits — not every Unicode letter (Ё/ё and all non-Cyrillic scripts
fall outside `[A-Za-zА-Яа-я0-9]`). -/
theorem claim_C8 (s : Str) :
    titleCheck s = true ↔
      ∃ c cs, s = c :: cs ∧
        (('A' ≤ c ∧ c ≤ 'Z') ∨ ('a' ≤ c ∧ c ≤ 'z') ∨ ('А' ≤ c ∧ c ≤ 'Я') ∨
         ('а' ≤ c ∧ c ≤ 'я') ∨ ('0' ≤ c ∧ c ≤ '9')) := by
  have hitems : (compileRe "^[A-Za-zА-Яа-я0-9]".toList).items =
      [(RAtom.cls false [('A', 'Z'), ('a', 'z'), ('А', 'Я'), ('а', 'я'), ('0', '9')],
        RQuant.one)] := by decide
  unfold titleCheck pyReMatch
  rw [hitems]
  cases s with
  | nil =>
    rw [show reTry
        [(RAtom.cls false [('A', 'Z'), ('a', 'z'), ('А', 'Я'), ('а', 'я'), ('0', '9')],
          RQuant.one)] [] = false from by decide]
    simp
  | cons c cs =>
    unfold reTry
    have hfuel : (((c :: cs).length + 1) *
        (([(RAtom.cls false [('A', 'Z'), ('a', 'z'), ('А', 'Я'), ('а', 'я'), ('0', '9')],
          RQuant.one)] : List (RAtom × RQuant)).length + 2)) = (3 * cs.length + 5) + 1 := by
      simp only [List.length_cons, List.length_nil, List.length_singleton]
      ring
    rw [hfuel]
    have hfuel2 : (3 * cs.length + 5) = (3 * cs.length + 4) + 1 := by omega
    simp only [reMF, hfuel2]
    have hcls : ∀ d : Char,
        atomMatch (RAtom.cls false
          [('A', 'Z'), ('a', 'z'), ('А', 'Я'), ('а', 'я'), ('0', '9')]) d = true ↔
        (('A' ≤ d ∧ d ≤ 'Z') ∨ ('a' ≤ d ∧ d ≤ 'z') ∨ ('А' ≤ d ∧ d ≤ 'Я') ∨
         ('а' ≤ d ∧ d ≤ 'я') ∨ ('0' ≤ d ∧ d ≤ '9')) := by
      intro d
      simp [atomMatch, List.any]
    constructor
    · intro h
      exact ⟨c, cs, rfl, (hcls c).mp ((Bool.and_eq_true _ _).mp h).1⟩
    · rintro ⟨c2, cs2, heq, hp⟩
      cases heq
      exact (Bool.and_eq_true _ _).mpr ⟨(hcls _).mpr hp, rfl⟩

/-- C8 counterexample: 'ё' (U+0451) and 'μ' are Unicode letters, yet
titles beginning with them are rejected — refuting "letters include all
Unicode letters". -/
theorem claim_C8_cex :
    titleCheck "ёлка".toList = false ∧ titleCheck "μtask".toList = false := by decide

theorem claim_C8_witness : titleCheck "Задача 1".toList = true :=
  (claim_C8 ("Задача 1".toList)).mpr ⟨'З', "адача 1".toList, rfl, by decide⟩

/-- C2: `search_tasks` dispatches on the leading character exactly as the
claim describes — `/` takes the text between the first `/` and the final
character as a regex searched over title/description/category/status only;
`^` takes the remainder as a literal prefix over the given field's string
rendering, else title/description/category/status/id/due_date; otherwise
the query is a substring over the given field, else
title/description/category/status/due_date — and every mode returns the
matches in store order (the result is a filter, hence a sublist). -/
theorem claim_C2 (q : Str) (field : Option Field) (ts : List TaskR) :
    searchTasks q field ts = ts.filter (c2Pred q field) ∧
    List.Sublist (searchTasks q field ts) ts ∧
    ∀ t, t ∈ searchTasks q field ts ↔ t ∈ ts ∧ c2Pred q field t = true := by
  have hfilter : searchTasks q field ts = ts.filter (c2Pred q field) := by
    by_cases h1 : isPre ['/'] q
    · simp only [searchTasks, h1, if_true, searchRegexT]
      refine List.filter_congr ?_
      intro t ht
      simp only [c2Pred, h1, if_true]
    · by_cases h2 : isPre ['^'] q
      · cases field with
        | none =>
          simp only [searchTasks, h1, h2, if_true, Bool.false_eq_true, if_false, searchPreT]
          refine List.filter_congr ?_
          intro t ht
          simp only [c2Pred, h1, h2, if_true, Bool.false_eq_true, if_false]
        | some f =>
          simp only [searchTasks, h1, h2, if_true, Bool.false_eq_true, if_false, searchPreT]
          refine List.filter_congr ?_
          intro t ht
          simp only [c2Pred, h1, h2, if_true, Bool.false_eq_true, if_false]
      · cases field with
        | none =>
          simp only [searchTasks, h1, h2, Bool.false_eq_true, if_false, searchTermT]
          refine List.filter_congr ?_
          intro t ht
          simp only [c2Pred, h1, h2, Bool.false_eq_true, if_false]
        | some f =>
          simp only [searchTasks, h1, h2, Bool.false_eq_true, if_false, searchTermT]
          refine List.filter_congr ?_
          intro t ht
          simp only [c2Pred, h1, h2, Bool.false_eq_true, if_false]
  refine ⟨hfilter, ?_, ?_⟩
  · rw [hfilter]
    exact List.filter_sublist ts
  · intro t
    rw [hfilter, List.mem_filter]

theorem claim_C2_witness :
    searchTasks ('/' :: "ab".toList) none [sampleTask] =
      [sampleTask].filter (c2Pred ('/' :: "ab".toList) none) :=
  (claim_C2 ('/' :: "ab".toList) none [sampleTask]).1

/-- C5: `_normalize_value` trims and lowercases the input, scores every
allowed value with the 0–100 edit-distance ratio, returns the
highest-scoring candidate taking the first on ties, errors (naming the
processed input and the allowed set) whenever every score is below 70, and
errors on an empty allowed list. -/
theorem claim_C5 (input : Str) (valid : List Str) :
    (valid = [] →
      normalizeValue input valid = .error (.invalidEnum (pyProcess input) valid)) ∧
    (∀ v, normalizeValue input valid = .ok v →
      v ∈ valid ∧ 70 ≤ fuzzScore (pyProcess input) v ∧
      ∃ V1 V2, valid = V1 ++ v :: V2 ∧
        (∀ u ∈ V1, fuzzScore (pyProcess input) u < fuzzScore (pyProcess input) v) ∧
        (∀ u ∈ V2, fuzzScore (pyProcess input) u ≤ fuzzScore (pyProcess input) v)) ∧
    ((∀ v ∈ valid, fuzzScore (pyProcess input) v < 70) →
      normalizeValue input valid = .error (.invalidEnum (pyProcess input) valid)) ∧
    (∀ a b : Str, 0 ≤ fuzzScore a b ∧ fuzzScore a b ≤ 100) := by
  refine ⟨?_, normalizeValue_ok input valid, normalizeValue_err input valid,
    fun a b => ⟨fuzzScore_nonneg a b, fuzzScore_le_100 a b⟩⟩
  intro h
  subst h
  exact normalizeValue_err input [] (by simp)

/-- C1 (amended): `update_task` re-normalizes category/priority/status and
re-parses due_date, so the enum invariants of §3 are preserved by every
update (even a partially applied one), but the title check is NOT re-run —
title is assigned verbatim, so the title invariant can be broken (see the
counterexample). -/
theorem claim_C1 (now : DateTime) (a : UpdArgs) (tid : Int) (ts : List TaskR)
    (hts : ∀ t ∈ ts, EnumInv t) :
    ∀ t2 ∈ (updateTaskL now a tid ts).1, EnumInv t2 := by
  induction ts with
  | nil => intro t2 h2; simp [updateTaskL] at h2
  | cons t ts ih =>
    intro t2 h2
    by_cases hid : t.id = tid
    · simp only [updateTaskL, if_pos hid] at h2
      rcases happ : applyUpd now a t with ⟨t3, e3⟩
      have h3 : EnumInv t3 := by
        have := applyUpd_inv now a t (hts t (List.mem_cons_self t ts))
        rw [happ] at this
        exact this
      rw [happ] at h2
      cases e3 with
      | none =>
        simp only at h2
        rcases List.mem_cons.mp h2 with h | h
        · subst h; exact h3
        · exact hts t2 (List.mem_cons_of_mem t h)
      | some e =>
        simp only at h2
        rcases List.mem_cons.mp h2 with h | h
        · subst h; exact h3
        · exact hts t2 (List.mem_cons_of_mem t h)
    · simp only [updateTaskL, if_neg hid] at h2
      rcases List.mem_cons.mp h2 with h | h
      · rw [h]; exact hts t (List.mem_cons_self t ts)
      · exact ih (fun u hu => hts u (List.mem_cons_of_mem t hu)) t2 h

/-- C1 counterexample: updating only the title with the invalid string
"!bad" succeeds, saves, and leaves a stored task whose title fails the
construction-time check — so not every mutation path re-runs the
construction checks. -/
theorem claim_C1_cex :
    updateTaskL dt0 updTitleBad 1 [sampleTask] =
      ([{ sampleTask with title := "!bad".toList }], none, true) ∧
    titleCheck "!bad".toList = false := by decide

theorem claim_C1_witness : EnumInv { sampleTask with title := "!bad".toList } :=
  claim_C1 dt0 updTitleBad 1 [sampleTask] (by decide)
    ({ sampleTask with title := "!bad".toList }) (by decide)

/-- C9: `update_task` is not atomic.  With the priority argument failing
to normalize while the earlier fields succeed, the in-memory task keeps
the already-applied title/description/category/due_date mutations, the
later status field is untouched, the error propagates, and the file is not
rewritten. -/
theorem claim_C9 (now : DateTime) (a : UpdArgs) (t : TaskR) (ts : List TaskR) (e : Err)
    (hp : pyTruthyStr a.priority = true)
    (hpe : normalizeValue (a.priority.getD []) prioritiesL = .error e)
    (hc : pyTruthyStr a.category = false ∨
      ∃ v, normalizeValue (a.category.getD []) categoriesL = .ok v)
    (hd : pyTruthyStr a.due_date = false ∨ ∃ v, parseDueDate now a.due_date = .ok v) :
    ∃ t5 : TaskR,
      updateTaskL now a t.id (t :: ts) = (t5 :: ts, some e, false) ∧
      t5.priority = t.priority ∧ t5.status = t.status ∧ t5.id = t.id ∧
      t5.title = (if pyTruthyStr a.title then a.title.getD [] else t.title) ∧
      t5.description =
        (if pyTruthyStr a.description then a.description.getD [] else t.description) ∧
      ((pyTruthyStr a.category = false ∧ t5.category = t.category) ∨
        (pyTruthyStr a.category = true ∧
          normalizeValue (a.category.getD []) categoriesL = .ok t5.category)) ∧
      ((pyTruthyStr a.due_date = false ∧ t5.due = t.due) ∨
        (pyTruthyStr a.due_date = true ∧ parseDueDate now a.due_date = .ok t5.due)) := by
  set t1 := applyTitle a t with ht1
  set t2 := applyDesc a t1 with ht2
  have ht1f : t1.description = t.description ∧ t1.category = t.category ∧
      t1.due = t.due ∧ t1.priority = t.priority ∧ t1.status = t.status ∧ t1.id = t.id ∧
      t1.title = (if pyTruthyStr a.title then a.title.getD [] else t.title) := by
    rw [ht1]; unfold applyTitle; split <;> simp_all
  have ht2f : t2.title = t1.title ∧ t2.category = t.category ∧
      t2.due = t.due ∧ t2.priority = t.priority ∧ t2.status = t.status ∧ t2.id = t.id ∧
      t2.description =
        (if pyTruthyStr a.description then a.description.getD [] else t.description) := by
    rw [ht2]; unfold applyDesc; split <;> simp_all [ht1f.1, ht1f.2.1]
  obtain ⟨t3, hcat3, h3title, h3desc, h3due, h3pri, h3st, h3id, h3cat⟩ :
      ∃ t3 : TaskR, updCategory a t2 = (t3, none) ∧ t3.title = t2.title ∧
        t3.description = t2.description ∧ t3.due = t2.due ∧ t3.priority = t2.priority ∧
        t3.status = t2.status ∧ t3.id = t2.id ∧
        ((pyTruthyStr a.category = false ∧ t3.category = t2.category) ∨
          (pyTruthyStr a.category = true ∧
            normalizeValue (a.category.getD []) categoriesL = .ok t3.category)) := by
    by_cases hct : pyTruthyStr a.category
    · rcases hc with hfalse | ⟨v, hv⟩
      · rw [hct] at hfalse; exact absurd hfalse (by simp)
      · refine ⟨{ t2 with category := v }, ?_, rfl, rfl, rfl, rfl, rfl, rfl, ?_⟩
        · unfold updCategory
          rw [if_pos hct, hv]
        · exact Or.inr ⟨hct, by simpa using hv⟩
    · refine ⟨t2, ?_, rfl, rfl, rfl, rfl, rfl, rfl, Or.inl ⟨by simpa using hct, rfl⟩⟩
      unfold updCategory
      rw [if_neg hct]
  obtain ⟨t4, hdue4, h4title, h4desc, h4cat, h4pri, h4st, h4id, h4due⟩ :
      ∃ t4 : TaskR, updDue now a t3 = (t4, none) ∧ t4.title = t3.title ∧
        t4.description = t3.description ∧ t4.category = t3.category ∧
        t4.priority = t3.priority ∧ t4.status = t3.status ∧ t4.id = t3.id ∧
        ((pyTruthyStr a.due_date = false ∧ t4.due = t3.due) ∨
          (pyTruthyStr a.due_date = true ∧ parseDueDate now a.due_date = .ok t4.due)) := by
    by_cases hdt : pyTruthyStr a.due_date
    · rcases hd with hfalse | ⟨v, hv⟩
      · rw [hdt] at hfalse; exact absurd hfalse (by simp)
      · refine ⟨{ t3 with due := v }, ?_, rfl, rfl, rfl, rfl, rfl, rfl, ?_⟩
        · unfold updDue
          rw [if_pos hdt, hv]
        · exact Or.inr ⟨hdt, by simpa using hv⟩
    · refine ⟨t3, ?_, rfl, rfl, rfl, rfl, rfl, rfl, Or.inl ⟨by simpa using hdt, rfl⟩⟩
      unfold updDue
      rw [if_neg hdt]
  have hstages : applyStages now a t2 = (t4, some e) := by
    have h5 : updPri a t4 = (t4, some e) := by
      unfold updPri
      rw [if_pos hp, hpe]
    simp only [applyStages, hcat3, hdue4, h5]
  refine ⟨t4, ?_, ?_, ?_, ?_, ?_, ?_, ?_, ?_⟩
  · simp only [updateTaskL, if_pos rfl]
    have happ : applyUpd now a t = (t4, some e) := by
      unfold applyUpd
      rw [← ht1, ← ht2]
      exact hstages
    rw [happ]
    simp
  · rw [h4pri, h3pri, ht2f.2.2.2.1]
  · rw [h4st, h3st, ht2f.2.2.2.2.1]
  · rw [h4id, h3id, ht2f.2.2.2.2.2.1]
  · rw [h4title, h3title, ht2f.1, ht1f.2.2.2.2.2.2]
  · rw [h4desc, h3desc, ht2f.2.2.2.2.2.2]
  · rcases h3cat with ⟨hf, heq⟩ | ⟨ht, hok⟩
    · exact Or.inl ⟨hf, by rw [h4cat, heq, ht2f.2.1]⟩
    · exact Or.inr ⟨ht, by rw [h4cat]; exact hok⟩
  · rcases h4due with ⟨hf, heq⟩ | ⟨ht, hok⟩
    · exact Or.inl ⟨hf, by rw [heq, h3due, ht2f.2.2.1]⟩
    · exact Or.inr ⟨ht, hok⟩

theorem claim_C9_witness :
    ∃ t5 : TaskR,
      updateTaskL dt0 updPriBad sampleTask.id (sampleTask :: []) =
        (t5 :: [], some (Err.invalidEnum (pyProcess "zzzz".toList) prioritiesL), false) ∧
      t5.priority = sampleTask.priority ∧ t5.status = sampleTask.status ∧
      t5.id = sampleTask.id ∧
      t5.title = (if pyTruthyStr updPriBad.title then updPriBad.title.getD []
        else sampleTask.title) ∧
      t5.description = (if pyTruthyStr updPriBad.description then
        updPriBad.description.getD [] else sampleTask.description) ∧
      ((pyTruthyStr updPriBad.category = false ∧ t5.category = sampleTask.category) ∨
        (pyTruthyStr updPriBad.category = true ∧
          normalizeValue (updPriBad.category.getD []) categoriesL = .ok t5.category)) ∧
      ((pyTruthyStr updPriBad.due_date = false ∧ t5.due = sampleTask.due) ∨
        (pyTruthyStr updPriBad.due_date = true ∧
          parseDueDate dt0 updPriBad.due_date = .ok t5.due)) :=
  claim_C9 dt0 updPriBad sampleTask [] (Err.invalidEnum (pyProcess "zzzz".toList) prioritiesL)
    (by decide) (by decide) (Or.inr ⟨"работа".toList, by decide⟩) (Or.inl (by decide))

theorem claim_C5_witness :
    "другое".toList ∈ categoriesL ∧
    70 ≤ fuzzScore (pyProcess "друге".toList) "другое".toList ∧
    ∃ V1 V2, categoriesL = V1 ++ "другое".toList :: V2 ∧
      (∀ u ∈ V1, fuzzScore (pyProcess "друге".toList) u <
        fuzzScore (pyProcess "друге".toList) "другое".toList) ∧
      (∀ u ∈ V2, fuzzScore (pyProcess "друге".toList) u ≤
        fuzzScore (pyProcess "друге".toList) "другое".toList) :=
  (claim_C5 "друге".toList categoriesL).2.1 ("другое".toList) (by decide)

/-- C4: deserializing the serialized record of a valid task — title and
description verbatim, category/priority/status re-normalized, the
`YYYY-MM-DD hh:mm` due date re-parsed, the explicit id adopted — yields a
task equal to the original in every field, with due_date equal to minute
precision (seconds are truncated). -/
theorem claim_C4 (now2 : DateTime) (c : Int) (t : TaskR) (h : TaskValid t) :
    loadRecord now2 c (toRecord t) =
      .ok ({ t with due := minuteTrunc t.due }, (assignId (some t.id) c).2) := by
  obtain ⟨htitle, hcat, hpri, hst, hdv⟩ := h
  unfold loadRecord toRecord mkTask
  rw [if_neg (show ¬(titleCheck t.title = false) from by simp [htitle])]
  simp only [normCat t.category hcat, normPri t.priority hpri, normStat t.status hst,
    parseDueDate_fmt now2 t.due hdv]
  have hdesc : (if (t.description).isEmpty then ([] : Str) else t.description) =
      t.description := by
    by_cases hde : t.description.isEmpty
    · rw [if_pos hde]
      exact (List.isEmpty_iff.mp hde).symm
    · rw [if_neg hde]
  simp only [hdesc]
  rfl

theorem claim_C4_witness :
    loadRecord dt0 5 (toRecord sampleTask) =
      .ok ({ sampleTask with due := minuteTrunc sampleTask.due },
        (assignId (some sampleTask.id) 5).2) :=
  claim_C4 dt0 5 sampleTask (by decide)

set_option maxRecDepth 16000 in
/-- C3 (amended): for every call time `now`, parsing "1y 2mo" adds the
(zero) accumulated duration to now and then increments the year and month
fields with month overflow carried into the year — exactly — PROVIDED the
day-of-month of `now` exists in the carried target month and the target
year stays in range; otherwise `datetime.replace` raises (see the
counterexample), so the claim's unconditional "for every call time"
fails. -/
theorem claim_C3 (now : DateTime) (hv : now.Valid)
    (h1 : (carryM (now.year + 1) (now.month + 2)).1 ≤ 9999)
    (h2 : now.day ≤ daysInMonth (carryM (now.year + 1) (now.month + 2)).1
      (carryM (now.year + 1) (now.month + 2)).2) :
    parseDueDate now (some ("1y 2mo".toList)) =
      .ok { now with year := (carryM (now.year + 1) (now.month + 2)).1,
                     month := (carryM (now.year + 1) (now.month + 2)).2 } := by
  have habs : tryFormats now ("1y 2mo".toList) = none := rfl
  have hacc : relAccum (pySplit ("1y 2mo".toList)) = .ok ⟨true, 1, 2, 0⟩ := rfl
  obtain ⟨g1, g2, g3, g4, g5, g6, g7, g8, g9⟩ := hv
  simp only [parseDueDate, habs, hacc]
  unfold relFinish
  rw [if_neg (by simp)]
  rw [addMinutes_zero now ⟨g1, g2, g3, g4, g5, g6, g7, g8, g9⟩]
  rw [if_neg (by omega : ¬(9999 < now.year))]
  rw [if_pos (by simp : (⟨true, 1, 2, 0⟩ : RelAcc).months ≠ 0 ∨
    (⟨true, 1, 2, 0⟩ : RelAcc).years ≠ 0)]
  show pyReplaceYM now (carryM (now.year + 1) (now.month + 2)).1
    (carryM (now.year + 1) (now.month + 2)).2 = _
  unfold pyReplaceYM
  rw [if_pos ?_]
  by_cases hm : now.month + 2 ≤ 12
  · rw [carryM_le _ _ hm] at h1 h2 ⊢
    exact ⟨by omega, h1, by omega, by omega, h2⟩
  · rw [carryM_once _ _ (by omega) (by omega)] at h1 h2 ⊢
    exact ⟨by omega, h1, by omega, by omega, h2⟩

set_option maxRecDepth 16000 in
/-- C3 counterexample: at call time 2024-12-31 the code raises a
day-out-of-range error from `replace` (1 year + 2 carried months lands on
February 31), so "for every call time now ... the result agrees with the
expected instant" is false. -/
theorem claim_C3_cex :
    parseDueDate ⟨2024, 12, 31, 0, 0, 0⟩ (some ("1y 2mo".toList)) =
      .error (.badReplace 2026 2 31) := by decide

set_option maxRecDepth 16000 in
theorem claim_C3_witness :
    parseDueDate dt0 (some ("1y 2mo".toList)) =
      .ok { dt0 with year := (carryM (dt0.year + 1) (dt0.month + 2)).1,
                     month := (carryM (dt0.year + 1) (dt0.month + 2)).2 } :=
  claim_C3 dt0 (by decide) (by decide) (by decide)

set_option maxRecDepth 16000 in
/-- C10 (amended): in the relative grammar, tokens that do not match
`(\d+)\s*(\w+)` are skipped silently — the accumulation over the token
list equals the accumulation over only the matching tokens, the
invalid-due-date error arises exactly when zero tokens match, and with at
least one match and no month/year carry the parse succeeds with
now + accumulated duration (e.g. "1d tomorrow" = now + 1 day).  The
original claim's unconditional "the parse succeeds" fails when the
month/year carry lands on an invalid day (see the counterexample). -/
theorem claim_C10 (now : DateTime) (s : Str) (habs : tryFormats now s = none) :
    (relAccum (pySplit s) =
      relAccum ((pySplit s).filter fun t => (tokMatch t).isSome)) ∧
    ((∀ t ∈ pySplit s, tokMatch t = none) →
      parseDueDate now (some s) = .error (.invalidDueDate s)) ∧
    (∀ acc, relAccum (pySplit s) = .ok acc →
      (acc.matched = true ↔ ∃ t ∈ pySplit s, (tokMatch t).isSome = true)) ∧
    (∀ acc, relAccum (pySplit s) = .ok acc → acc.matched = true →
      (addMinutes now acc.minutes).year ≤ 9999 → acc.months = 0 → acc.years = 0 →
      parseDueDate now (some s) = .ok (addMinutes now acc.minutes)) ∧
    (∀ now2 : DateTime, (addMinutes now2 1440).year ≤ 9999 →
      parseDueDate now2 (some ("1d tomorrow".toList)) = .ok (addMinutes now2 1440)) := by
  refine ⟨relAccumAux_filter (pySplit s) _, ?_, ?_, ?_, ?_⟩
  · intro hall
    have hacc : relAccum (pySplit s) = .ok ⟨false, 0, 0, 0⟩ :=
      relAccumAux_nomatch (pySplit s) _ hall
    simp only [parseDueDate, habs, hacc]
    rfl
  · intro acc hacc
    have := relAccumAux_matched (pySplit s) ⟨false, 0, 0, 0⟩ acc hacc
    simpa using this
  · intro acc hacc hm hyr hmo hyrs
    simp only [parseDueDate, habs, hacc]
    unfold relFinish
    rw [if_neg (by simp [hm])]
    rw [if_neg (by omega : ¬(9999 < (addMinutes now acc.minutes).year))]
    rw [if_neg (by simp [hmo, hyrs])]
  · intro now2 hyr
    have habs2 : tryFormats now2 ("1d tomorrow".toList) = none := rfl
    have hacc2 : relAccum (pySplit ("1d tomorrow".toList)) = .ok ⟨true, 0, 0, 1440⟩ := rfl
    simp only [parseDueDate, habs2, hacc2]
    unfold relFinish
    rw [if_neg (by simp)]
    rw [if_neg (by omega : ¬(9999 < (addMinutes now2 1440).year))]
    rw [if_neg (by simp)]

set_option maxRecDepth 16000 in
/-- C10 counterexample: "1mo" at call time 2025-01-31 — the single token
matches the pattern and its unit normalizes, yet the parse raises a
day-out-of-range error (February 31) instead of succeeding. -/
theorem claim_C10_cex :
    tokMatch ("1mo".toList) = some (1, "mo".toList) ∧
    normalizeValue (pyLower ("mo".toList)) unitsAll = .ok ("mo".toList) ∧
    parseDueDate ⟨2025, 1, 31, 0, 0, 0⟩ (some ("1mo".toList)) =
      .error (.badReplace 2025 2 31) := by decide

set_option maxRecDepth 16000 in
theorem claim_C10_witness :
    parseDueDate dt0 (some ("1d tomorrow".toList)) = .ok (addMinutes dt0 1440) :=
  (claim_C10 dt0 ("1d tomorrow".toList) (by decide)).2.2.2.2 dt0 (by decide)

end TaskModel
